import Mathlib

/-!
Verification of the fylge distributed marker store core against its
natural-language specification.

The Rust source is shallowly embedded: pure functions become Lean
functions, stateful methods become explicit state passing, u64/u32
arithmetic becomes Nat with explicit saturation or wrap where the source
saturates or can overflow.
-/

namespace Fylge

/-! ## Data model (crates/fylge-core) -/

/-- Opaque 64-bit float payload value: the code only copies lat and lon,
never computes with them, so an f64 is carried as its raw bit pattern. -/
structure F64 where
  bits : Nat
deriving DecidableEq, Repr

/-- NodeId from fylge-core/src/node.rs: newtype around u64. -/
structure NodeId where
  val : Nat
deriving DecidableEq, Repr

/-- HlcTimestamp from fylge-core/src/hlc.rs: wall_time (u64 ms),
counter (u32), node_id. -/
structure HlcTimestamp where
  wall_time : Nat
  counter : Nat
  node_id : NodeId
deriving DecidableEq, Repr

/-- Zero timestamp, HlcTimestamp::zero. -/
def HlcTimestamp.zero (node_id : NodeId) : HlcTimestamp :=
  ⟨0, 0, node_id⟩

/-- Strict HLC order from the Ord impl for HlcTimestamp:
wall_time, then counter, then node_id. -/
def hlcLt (a b : HlcTimestamp) : Prop :=
  a.wall_time < b.wall_time ∨
    (a.wall_time = b.wall_time ∧
      (a.counter < b.counter ∨
        (a.counter = b.counter ∧ a.node_id.val < b.node_id.val)))

instance : DecidableRel hlcLt := fun a b => by
  unfold hlcLt; infer_instance

/-- Reflexive closure of the HLC order (the Ord le). -/
def hlcLe (a b : HlcTimestamp) : Prop :=
  hlcLt a b ∨ a = b

instance : DecidableRel hlcLe := fun a b => by
  unfold hlcLe; infer_instance

theorem hlcLe_refl (a : HlcTimestamp) : hlcLe a a := Or.inr rfl

theorem hlcLe_total (a b : HlcTimestamp) : hlcLe a b ∨ hlcLe b a := by
  obtain ⟨aw, ac, ⟨an⟩⟩ := a
  obtain ⟨bw, bc, ⟨bn⟩⟩ := b
  simp only [hlcLe, hlcLt, HlcTimestamp.mk.injEq, NodeId.mk.injEq]
  omega

theorem hlcLe_trans {a b c : HlcTimestamp} (h1 : hlcLe a b) (h2 : hlcLe b c) :
    hlcLe a c := by
  obtain ⟨aw, ac, ⟨an⟩⟩ := a
  obtain ⟨bw, bc, ⟨bn⟩⟩ := b
  obtain ⟨cw, cc, ⟨cn⟩⟩ := c
  simp only [hlcLe, hlcLt, HlcTimestamp.mk.injEq, NodeId.mk.injEq] at *
  omega

theorem hlcLe_antisymm {a b : HlcTimestamp} (h1 : hlcLe a b) (h2 : hlcLe b a) :
    a = b := by
  obtain ⟨aw, ac, ⟨an⟩⟩ := a
  obtain ⟨bw, bc, ⟨bn⟩⟩ := b
  simp only [hlcLe, hlcLt, HlcTimestamp.mk.injEq, NodeId.mk.injEq] at *
  omega

theorem hlcLt_of_wall {a b : HlcTimestamp} (h : a.wall_time < b.wall_time) :
    hlcLt a b := Or.inl h

theorem hlcLt_of_counter {a b : HlcTimestamp} (hw : a.wall_time = b.wall_time)
    (h : a.counter < b.counter) : hlcLt a b := Or.inr ⟨hw, Or.inl h⟩

/-! ## Hybrid logical clock (fylge-core/src/hlc.rs) -/

/-- Maximum value of a u32 counter. -/
def u32Max : Nat := 4294967295

/-- Model of u32::saturating_add(1). -/
def satAdd1 (c : Nat) : Nat := min (c + 1) u32Max

/-- ClockError from fylge-core/src/error.rs. -/
inductive ClockError where
  | ExcessiveDrift (ms : Nat)
  | RemoteClockAhead (ms : Nat)
deriving DecidableEq, Repr

/-- Hlc clock state: node_id, last_timestamp (behind a mutex in the
source, made explicit here), max_drift_ms. -/
structure Hlc where
  node_id : NodeId
  last_timestamp : HlcTimestamp
  max_drift_ms : Nat
deriving DecidableEq, Repr

/-- Hlc::new with the 60_000 ms default drift. -/
def Hlc.mkNew (node_id : NodeId) : Hlc :=
  ⟨node_id, HlcTimestamp.zero node_id, 60000⟩

/-- Hlc::with_max_drift. -/
def Hlc.with_max_drift (node_id : NodeId) (max_drift_ms : Nat) : Hlc :=
  ⟨node_id, HlcTimestamp.zero node_id, max_drift_ms⟩

/-- Hlc::now, with the physical time reading passed explicitly.
Returns the produced timestamp together with the updated clock. -/
def Hlc.now (h : Hlc) (physical : Nat) :
    Except ClockError (HlcTimestamp × Hlc) :=
  let last := h.last_timestamp
  if last.wall_time > physical + h.max_drift_ms then
    .error (.ExcessiveDrift (last.wall_time - physical))
  else
    let new_ts : HlcTimestamp :=
      if physical > last.wall_time then
        ⟨physical, 0, h.node_id⟩
      else
        ⟨last.wall_time, satAdd1 last.counter, h.node_id⟩
    .ok (new_ts, { h with last_timestamp := new_ts })

/-- Hlc::receive, with the physical time reading passed explicitly. -/
def Hlc.receive (h : Hlc) (physical : Nat) (remote : HlcTimestamp) :
    Except ClockError (HlcTimestamp × Hlc) :=
  let last := h.last_timestamp
  if remote.wall_time > physical + h.max_drift_ms then
    .error (.RemoteClockAhead (remote.wall_time - physical))
  else
    let max_wall := (max (max physical last.wall_time) remote.wall_time)
    let new_ts : HlcTimestamp :=
      if max_wall = physical ∧ physical > last.wall_time ∧
          physical > remote.wall_time then
        ⟨physical, 0, h.node_id⟩
      else if max_wall = last.wall_time ∧ last.wall_time = remote.wall_time then
        ⟨max_wall, satAdd1 (max last.counter remote.counter), h.node_id⟩
      else if max_wall = last.wall_time then
        ⟨max_wall, satAdd1 last.counter, h.node_id⟩
      else
        ⟨max_wall, satAdd1 remote.counter, h.node_id⟩
    .ok (new_ts, { h with last_timestamp := new_ts })

/-- A call on one clock, each carrying an arbitrary physical reading. -/
inductive ClockCall where
  | now (physical : Nat)
  | receive (physical : Nat) (remote : HlcTimestamp)
deriving DecidableEq, Repr

/-- Dispatch one call. -/
def Hlc.step (h : Hlc) : ClockCall → Except ClockError (HlcTimestamp × Hlc)
  | .now p => h.now p
  | .receive p r => h.receive p r

/-- Run a sequence of calls, collecting the timestamps returned by the
successful calls; a failed call leaves the clock unchanged. -/
def Hlc.run (h : Hlc) : List ClockCall → Hlc × List HlcTimestamp
  | [] => (h, [])
  | c :: cs =>
    match h.step c with
    | .error _ => h.run cs
    | .ok (t, h') =>
      let rest := h'.run cs
      (rest.1, t :: rest.2)

/-- A call does not clamp whenever the saturating counter addition it
would perform stays strictly below u32::MAX (or no addition happens). -/
def noClamp (h : Hlc) : ClockCall → Bool
  | .now p =>
    decide (h.last_timestamp.wall_time > p + h.max_drift_ms) ||
    decide (p > h.last_timestamp.wall_time) ||
    decide (h.last_timestamp.counter < u32Max)
  | .receive p r =>
    let last := h.last_timestamp
    if r.wall_time > p + h.max_drift_ms then
      true
    else
      let max_wall := (max (max p last.wall_time) r.wall_time)
      if max_wall = p ∧ p > last.wall_time ∧ p > r.wall_time then
        true
      else if max_wall = last.wall_time ∧ last.wall_time = r.wall_time then
        decide (max last.counter r.counter < u32Max)
      else if max_wall = last.wall_time then
        decide (last.counter < u32Max)
      else
        decide (r.counter < u32Max)

/-- NoClamp holds along a whole run. -/
def runNoClamp (h : Hlc) : List ClockCall → Bool
  | [] => true
  | c :: cs =>
    noClamp h c &&
      match h.step c with
      | .error _ => runNoClamp h cs
      | .ok (_, h') => runNoClamp h' cs

/-- Every successful receive in the run returned a timestamp strictly
greater than both the stored last timestamp and the remote argument. -/
def receiveDominates (h : Hlc) : List ClockCall → Bool
  | [] => true
  | c :: cs =>
    match h.step c with
    | .error _ => receiveDominates h cs
    | .ok (t, h') =>
      (match c with
       | .now _ => true
       | .receive _ r =>
         decide (hlcLt h.last_timestamp t) && decide (hlcLt r t)) &&
      receiveDominates h' cs

theorem now_ok_gt {h : Hlc} {p : Nat} {t : HlcTimestamp} {h' : Hlc}
    (hnc : noClamp h (.now p) = true) (hok : h.now p = .ok (t, h')) :
    hlcLt h.last_timestamp t ∧ h'.last_timestamp = t := by
  simp only [Hlc.now] at hok
  simp only [noClamp, Bool.or_eq_true, decide_eq_true_eq] at hnc
  split at hok
  · exact absurd hok (by simp)
  · rename_i hdrift
    split at hok <;>
      rename_i hphys <;>
      rw [Except.ok.injEq, Prod.mk.injEq] at hok <;>
      obtain ⟨ht, hh⟩ := hok <;>
      subst ht <;>
      refine ⟨?_, by rw [← hh]⟩
    · exact hlcLt_of_wall hphys
    · have hc : h.last_timestamp.counter < u32Max := by
        rcases hnc with (h1 | h2) | h3
        · omega
        · omega
        · exact h3
      exact hlcLt_of_counter rfl (by simp only [satAdd1, u32Max] at *; omega)

theorem receive_ok_gt {h : Hlc} {p : Nat} {r t : HlcTimestamp} {h' : Hlc}
    (hnc : noClamp h (.receive p r) = true)
    (hok : h.receive p r = .ok (t, h')) :
    hlcLt h.last_timestamp t ∧ hlcLt r t ∧ h'.last_timestamp = t := by
  simp only [Hlc.receive] at hok
  simp only [noClamp] at hnc
  split at hok
  · exact absurd hok (by simp)
  · rename_i hdrift
    rw [if_neg hdrift] at hnc
    split at hok
    · rename_i hb1
      rw [Except.ok.injEq, Prod.mk.injEq] at hok
      obtain ⟨ht, hh⟩ := hok
      subst ht
      exact ⟨hlcLt_of_wall hb1.2.1, hlcLt_of_wall hb1.2.2, by rw [← hh]⟩
    · rename_i hb1
      rw [if_neg hb1] at hnc
      split at hok
      · rename_i hb2
        rw [if_pos hb2, decide_eq_true_eq] at hnc
        rw [Except.ok.injEq, Prod.mk.injEq] at hok
        obtain ⟨ht, hh⟩ := hok
        subst ht
        refine ⟨?_, ?_, by rw [← hh]⟩
        · refine hlcLt_of_counter hb2.1.symm ?_
          simp only [satAdd1, u32Max] at *; omega
        · refine hlcLt_of_counter (by rw [hb2.1, hb2.2]) ?_
          simp only [satAdd1, u32Max] at *; omega
      · rename_i hb2
        rw [if_neg hb2] at hnc
        split at hok
        · rename_i hb3
          rw [if_pos hb3, decide_eq_true_eq] at hnc
          rw [Except.ok.injEq, Prod.mk.injEq] at hok
          obtain ⟨ht, hh⟩ := hok
          subst ht
          have hrw : r.wall_time < h.last_timestamp.wall_time := by
            rcases Nat.lt_or_ge r.wall_time h.last_timestamp.wall_time
              with hlt | hge
            · exact hlt
            · exact absurd ⟨hb3, by omega⟩ hb2
          refine ⟨?_, ?_, by rw [← hh]⟩
          · refine hlcLt_of_counter hb3.symm ?_
            simp only [satAdd1, u32Max] at *; omega
          · refine hlcLt_of_wall ?_
            show r.wall_time <
              max (max p h.last_timestamp.wall_time) r.wall_time
            omega
        · rename_i hb3
          rw [if_neg hb3, decide_eq_true_eq] at hnc
          rw [Except.ok.injEq, Prod.mk.injEq] at hok
          obtain ⟨ht, hh⟩ := hok
          subst ht
          have hmwl : h.last_timestamp.wall_time <
              max (max p h.last_timestamp.wall_time) r.wall_time := by
            have := le_trans (le_max_right p h.last_timestamp.wall_time)
              (le_max_left (max p h.last_timestamp.wall_time) r.wall_time)
            omega
          refine ⟨hlcLt_of_wall hmwl, ?_, by rw [← hh]⟩
          rcases Nat.lt_or_ge r.wall_time
              (max (max p h.last_timestamp.wall_time) r.wall_time)
            with hlt | hge
          · exact hlcLt_of_wall hlt
          · have hge2 : r.wall_time =
                max (max p h.last_timestamp.wall_time) r.wall_time := by
              have := le_max_right (max p h.last_timestamp.wall_time) r.wall_time
              omega
            refine hlcLt_of_counter hge2 ?_
            simp only [satAdd1, u32Max] at *; omega

theorem step_ok_gt {h : Hlc} {c : ClockCall} {t : HlcTimestamp} {h' : Hlc}
    (hnc : noClamp h c = true) (hok : h.step c = .ok (t, h')) :
    hlcLt h.last_timestamp t ∧ h'.last_timestamp = t := by
  cases c with
  | now p => exact now_ok_gt hnc hok
  | receive p r =>
    obtain ⟨h1, _, h3⟩ := receive_ok_gt hnc hok
    exact ⟨h1, h3⟩

theorem run_chain (h : Hlc) (calls : List ClockCall)
    (hnc : runNoClamp h calls = true) :
    List.Chain hlcLt h.last_timestamp (h.run calls).2 := by
  induction calls generalizing h with
  | nil => exact List.Chain.nil
  | cons c cs ih =>
    unfold runNoClamp at hnc
    rw [Bool.and_eq_true] at hnc
    unfold Hlc.run
    cases hstep : h.step c with
    | error e =>
      rw [hstep] at hnc
      simpa [hstep] using ih h hnc.2
    | ok th =>
      obtain ⟨t, h'⟩ := th
      rw [hstep] at hnc
      obtain ⟨hgt, hlast⟩ := step_ok_gt hnc.1 hstep
      simp only
      have hchain := ih h' hnc.2
      rw [hlast] at hchain
      exact List.Chain.cons hgt hchain

theorem run_receiveDominates (h : Hlc) (calls : List ClockCall)
    (hnc : runNoClamp h calls = true) :
    receiveDominates h calls = true := by
  induction calls generalizing h with
  | nil => rfl
  | cons c cs ih =>
    unfold runNoClamp at hnc
    rw [Bool.and_eq_true] at hnc
    unfold receiveDominates
    cases hstep : h.step c with
    | error e =>
      rw [hstep] at hnc
      exact ih h hnc.2
    | ok th =>
      obtain ⟨t, h'⟩ := th
      rw [hstep] at hnc
      rw [Bool.and_eq_true]
      refine ⟨?_, ih h' hnc.2⟩
      cases c with
      | now p => rfl
      | receive p r =>
        obtain ⟨h1, h2, _⟩ := receive_ok_gt hnc.1 hstep
        simp [h1, h2]

theorem chain_chain' {r : HlcTimestamp → HlcTimestamp → Prop}
    {a : HlcTimestamp} {l : List HlcTimestamp} (h : List.Chain r a l) :
    List.Chain' r l := by
  cases l with
  | nil => trivial
  | cons b t =>
    cases h with
    | cons _ htail => exact htail

/-- Claim C1, counterexample: with the stored last timestamp at zero and
a remote whose u32 counter is already at its maximum, Hlc::receive
saturates the counter and returns a timestamp that is strictly LESS than
the remote argument under the HLC total order (node 1 < node 2), so the
returned value is not strictly greater than the remote. -/
theorem receive_saturation_counterexample :
    ((Hlc.mkNew ⟨1⟩).receive 1 ⟨1, 4294967295, ⟨2⟩⟩).toOption =
      some (⟨1, 4294967295, ⟨1⟩⟩, ⟨⟨1⟩, ⟨1, 4294967295, ⟨1⟩⟩, 60000⟩) ∧
    ¬ hlcLt ⟨1, 4294967295, ⟨2⟩⟩ ⟨1, 4294967295, ⟨1⟩⟩ := by
  decide

/-- Claim C1 (amended): for every sequence of Hlc::now and Hlc::receive
calls on one clock, each with an arbitrary physical-time reading, and
provided no saturating counter addition clamps at u32::MAX along the
run, the timestamps returned by the successful calls are strictly
increasing under the HLC total order, and every successful receive
returns a value strictly greater than both the stored last timestamp
and the remote argument. -/
theorem hlc_run_strictly_increasing (h : Hlc) (calls : List ClockCall)
    (hnc : runNoClamp h calls = true) :
    List.Chain' hlcLt (h.run calls).2 ∧ receiveDominates h calls = true :=
  ⟨chain_chain' (run_chain h calls hnc), run_receiveDominates h calls hnc⟩

/-- Witness for the C1 theorem on a concrete run of four calls. -/
theorem hlc_run_strictly_increasing_witness :
    List.Chain' hlcLt ((Hlc.mkNew ⟨1⟩).run
      [.now 5, .now 5, .receive 6 ⟨7, 2, ⟨2⟩⟩, .now 6]).2 ∧
    receiveDominates (Hlc.mkNew ⟨1⟩)
      [.now 5, .now 5, .receive 6 ⟨7, 2, ⟨2⟩⟩, .now 6] = true :=
  hlc_run_strictly_increasing (Hlc.mkNew ⟨1⟩)
    [.now 5, .now 5, .receive 6 ⟨7, 2, ⟨2⟩⟩, .now 6] (by decide)

/-- Claim C7: if the remote timestamp passed to Hlc::receive has
wall_time strictly greater than the physical reading plus max_drift_ms,
receive returns the RemoteClockAhead error carrying the excess over the
physical reading, and the stored last timestamp is unchanged (the run
leaves the clock state untouched and returns no timestamp); a remote at
physical + 2 * max_drift_ms with positive drift bound satisfies the
hypothesis. -/
theorem hlc_receive_drift_rejected (h : Hlc) (p : Nat) (r : HlcTimestamp)
    (hgt : p + h.max_drift_ms < r.wall_time) :
    h.receive p r = .error (.RemoteClockAhead (r.wall_time - p)) ∧
    h.run [.receive p r] = (h, []) := by
  have hrec : h.receive p r = .error (.RemoteClockAhead (r.wall_time - p)) := by
    simp only [Hlc.receive]
    rw [if_pos (by omega)]
  refine ⟨hrec, ?_⟩
  simp [Hlc.run, Hlc.step, hrec]

/-- Witness for the C7 theorem: max_drift_ms of 10 and a remote at
physical + 2 * max_drift_ms is rejected, leaving the clock unchanged. -/
theorem hlc_receive_drift_rejected_witness :
    (Hlc.with_max_drift ⟨1⟩ 10).receive 100 ⟨120, 0, ⟨2⟩⟩ =
      .error (.RemoteClockAhead 20) ∧
    (Hlc.with_max_drift ⟨1⟩ 10).run [.receive 100 ⟨120, 0, ⟨2⟩⟩] =
      (Hlc.with_max_drift ⟨1⟩ 10, []) :=
  hlc_receive_drift_rejected (Hlc.with_max_drift ⟨1⟩ 10) 100 ⟨120, 0, ⟨2⟩⟩
    (by decide)

/-! ## Events and entities (fylge-core/src/event.rs, entity.rs) -/

/-- EventId from fylge-core/src/event.rs. -/
structure EventId where
  node_id : NodeId
  sequence : Nat
deriving DecidableEq, Repr

/-- MarkerData from fylge-core/src/event.rs. -/
structure MarkerData where
  lat : F64
  lon : F64
  icon_id : String
  label : Option String
deriving DecidableEq, Repr

/-- Payload from fylge-core/src/event.rs: Upsert or Tombstone. -/
inductive Payload where
  | Upsert (data : MarkerData)
  | Tombstone
deriving DecidableEq, Repr

/-- Event from fylge-core/src/event.rs; the entity UUID is carried as
its 128-bit value. -/
structure Event where
  id : EventId
  entity_id : Nat
  hlc : HlcTimestamp
  payload : Payload
deriving DecidableEq, Repr

/-- Entity from fylge-core/src/entity.rs. -/
structure Entity where
  id : Nat
  lat : F64
  lon : F64
  icon_id : String
  label : Option String
  hlc : HlcTimestamp
  source_event : EventId
  deleted : Bool
deriving DecidableEq, Repr

/-- Entity::from_event: tombstones give a deleted entity with zeroed
coordinates (0.0 has bit pattern 0), empty icon and no label. -/
def Entity.from_event (e : Event) : Entity :=
  match e.payload with
  | .Upsert data =>
    ⟨e.entity_id, data.lat, data.lon, data.icon_id, data.label,
      e.hlc, e.id, false⟩
  | .Tombstone =>
    ⟨e.entity_id, ⟨0⟩, ⟨0⟩, "", none, e.hlc, e.id, true⟩

/-! ## Replication checkpoint (fylge-core/src/storage.rs,
fylge-replication/src/checkpoint.rs) -/

/-- Lookup in an association list modelling a HashMap. -/
def assocLookup : List (NodeId × Nat) → NodeId → Option Nat
  | [], _ => none
  | (m, v) :: rest, n => if m = n then some v else assocLookup rest n

/-- Insert-or-replace in an association list modelling HashMap::insert. -/
def assocInsert : List (NodeId × Nat) → NodeId → Nat → List (NodeId × Nat)
  | [], n, v => [(n, v)]
  | (m, w) :: rest, n, v =>
    if m = n then (n, v) :: rest else (m, w) :: assocInsert rest n v

/-- ReplicationCheckpoint from fylge-core/src/storage.rs: map from
node_id to last seen sequence, missing entries meaning zero. -/
structure ReplicationCheckpoint where
  node_sequences : List (NodeId × Nat)
deriving DecidableEq, Repr

/-- ReplicationCheckpoint::last_seq_for. -/
def ReplicationCheckpoint.last_seq_for (ck : ReplicationCheckpoint)
    (node_id : NodeId) : Nat :=
  (assocLookup ck.node_sequences node_id).getD 0

/-- ReplicationCheckpoint::update. -/
def ReplicationCheckpoint.update (ck : ReplicationCheckpoint)
    (node_id : NodeId) (seq : Nat) : ReplicationCheckpoint :=
  ⟨assocInsert ck.node_sequences node_id seq⟩

theorem assocLookup_insert_self (l : List (NodeId × Nat)) (n : NodeId)
    (v : Nat) : assocLookup (assocInsert l n v) n = some v := by
  induction l with
  | nil => simp [assocInsert, assocLookup]
  | cons p rest ih =>
    obtain ⟨m, w⟩ := p
    by_cases hmn : m = n
    · simp [assocInsert, assocLookup, hmn]
    · simp [assocInsert, assocLookup, hmn, ih]

/-- Stable insertion of an event into a list sorted by sequence;
together with the fold below this models the stable
slice::sort_by_key(|e| e.id.sequence). -/
def insertBySeq (e : Event) : List Event → List Event
  | [] => [e]
  | x :: xs =>
    if e.id.sequence < x.id.sequence then e :: x :: xs
    else x :: insertBySeq e xs

/-- Stable sort by sequence. -/
def sortBySeq (l : List Event) : List Event := l.foldr insertBySeq []

theorem insertBySeq_perm (e : Event) (l : List Event) :
    (insertBySeq e l).Perm (e :: l) := by
  induction l with
  | nil => simp [insertBySeq]
  | cons x xs ih =>
    by_cases hlt : e.id.sequence < x.id.sequence
    · simp [insertBySeq, hlt]
    · simp only [insertBySeq, hlt, if_false]
      exact (ih.cons x).trans (List.Perm.swap e x xs)

theorem sortBySeq_perm (l : List Event) : (sortBySeq l).Perm l := by
  induction l with
  | nil => simp [sortBySeq]
  | cons x xs ih =>
    exact (insertBySeq_perm x (sortBySeq xs)).trans (ih.cons x)

theorem insertBySeq_sorted (e : Event) (l : List Event)
    (hs : l.Pairwise (fun a b => a.id.sequence ≤ b.id.sequence)) :
    (insertBySeq e l).Pairwise (fun a b => a.id.sequence ≤ b.id.sequence) := by
  induction l with
  | nil => simp [insertBySeq]
  | cons x xs ih =>
    rw [List.pairwise_cons] at hs
    by_cases hlt : e.id.sequence < x.id.sequence
    · rw [insertBySeq, if_pos hlt, List.pairwise_cons]
      refine ⟨?_, List.pairwise_cons.mpr hs⟩
      intro b hb
      rw [List.mem_cons] at hb
      rcases hb with rfl | hb
      · omega
      · have := hs.1 b hb; omega
    · rw [insertBySeq, if_neg hlt, List.pairwise_cons]
      refine ⟨?_, ih hs.2⟩
      intro b hb
      have hmem := (insertBySeq_perm e xs).mem_iff.mp hb
      rw [List.mem_cons] at hmem
      rcases hmem with rfl | hmem
      · omega
      · exact hs.1 b hmem

theorem sortBySeq_sorted (l : List Event) :
    (sortBySeq l).Pairwise (fun a b => a.id.sequence ≤ b.id.sequence) := by
  induction l with
  | nil => simp [sortBySeq]
  | cons x xs ih => exact insertBySeq_sorted x (sortBySeq xs) ih

/-- Loop body of CheckpointManager::update_contiguous: advance on the
next contiguous sequence, stop at a gap, skip already-covered ones. -/
def contiguousGo (new_seq : Nat) : List Event → Nat
  | [] => new_seq
  | e :: rest =>
    if e.id.sequence = new_seq + 1 then contiguousGo e.id.sequence rest
    else if e.id.sequence > new_seq + 1 then new_seq
    else contiguousGo new_seq rest

/-- CheckpointManager::update_contiguous from
fylge-replication/src/checkpoint.rs. -/
def CheckpointManager.update_contiguous (ck : ReplicationCheckpoint)
    (node_id : NodeId) (events : List Event) : ReplicationCheckpoint :=
  if events.isEmpty then ck
  else
    let node_events :=
      sortBySeq (events.filter (fun e => decide (e.id.node_id = node_id)))
    let current_seq := ck.last_seq_for node_id
    let new_seq := contiguousGo current_seq node_events
    if new_seq > current_seq then ck.update node_id new_seq else ck

theorem contiguousGo_ge (l : List Event) (new_seq : Nat) :
    new_seq ≤ contiguousGo new_seq l := by
  induction l generalizing new_seq with
  | nil => exact le_refl _
  | cons e rest ih =>
    unfold contiguousGo
    by_cases h1 : e.id.sequence = new_seq + 1
    · rw [if_pos h1]
      have := ih e.id.sequence
      omega
    · rw [if_neg h1]
      by_cases h2 : e.id.sequence > new_seq + 1
      · rw [if_pos h2]
      · rw [if_neg h2]; exact ih new_seq

theorem contiguousGo_covers (l : List Event) (new_seq : Nat)
    (hs : l.Pairwise (fun a b => a.id.sequence ≤ b.id.sequence))
    (j : Nat) (hj1 : new_seq < j) (hj2 : j ≤ contiguousGo new_seq l) :
    j ∈ l.map (fun e => e.id.sequence) := by
  induction l generalizing new_seq with
  | nil => simp only [contiguousGo] at hj2; omega
  | cons e rest ih =>
    rw [List.pairwise_cons] at hs
    unfold contiguousGo at hj2
    by_cases h1 : e.id.sequence = new_seq + 1
    · rw [if_pos h1] at hj2
      rcases Nat.eq_or_lt_of_le hj1 with heq | hlt
      · simp only [List.map_cons, List.mem_cons]
        exact Or.inl (by omega)
      · have hmem := ih e.id.sequence hs.2 (by omega) hj2
        simp only [List.map_cons, List.mem_cons]
        exact Or.inr hmem
    · rw [if_neg h1] at hj2
      by_cases h2 : e.id.sequence > new_seq + 1
      · rw [if_pos h2] at hj2; omega
      · rw [if_neg h2] at hj2
        have hmem := ih new_seq hs.2 hj1 hj2
        simp only [List.map_cons, List.mem_cons]
        exact Or.inr hmem

theorem contiguousGo_next_not_mem (l : List Event) (new_seq : Nat)
    (hs : l.Pairwise (fun a b => a.id.sequence ≤ b.id.sequence)) :
    contiguousGo new_seq l + 1 ∉ l.map (fun e => e.id.sequence) := by
  induction l generalizing new_seq with
  | nil => simp
  | cons e rest ih =>
    rw [List.pairwise_cons] at hs
    unfold contiguousGo
    by_cases h1 : e.id.sequence = new_seq + 1
    · rw [if_pos h1]
      have hge := contiguousGo_ge rest e.id.sequence
      simp only [List.map_cons, List.mem_cons]
      push_neg
      exact ⟨by omega, ih e.id.sequence hs.2⟩
    · rw [if_neg h1]
      by_cases h2 : e.id.sequence > new_seq + 1
      · rw [if_pos h2]
        simp only [List.map_cons, List.mem_cons]
        push_neg
        refine ⟨by omega, ?_⟩
        intro hmem
        rw [List.mem_map] at hmem
        obtain ⟨x, hx, hxeq⟩ := hmem
        have := hs.1 x hx
        omega
      · rw [if_neg h2]
        have hge := contiguousGo_ge rest new_seq
        simp only [List.map_cons, List.mem_cons]
        push_neg
        exact ⟨by omega, ih new_seq hs.2⟩

theorem contiguousGo_stable (l : List Event) (new_seq : Nat)
    (hnm : new_seq + 1 ∉ l.map (fun e => e.id.sequence)) :
    contiguousGo new_seq l = new_seq := by
  induction l with
  | nil => rfl
  | cons e rest ih =>
    simp only [List.map_cons, List.mem_cons] at hnm
    push_neg at hnm
    unfold contiguousGo
    rw [if_neg (by omega)]
    by_cases h2 : e.id.sequence > new_seq + 1
    · rw [if_pos h2]
    · rw [if_neg h2]
      exact ih hnm.2

/-- Helper building a concrete event for a node and sequence, in the
shape of the make_event test helper. -/
def mkEvt (node seq : Nat) : Event :=
  ⟨⟨⟨node⟩, seq⟩, 0, ⟨1000 + seq, 0, ⟨node⟩⟩, .Upsert ⟨⟨0⟩, ⟨0⟩, "ship", none⟩⟩

/-- Claim C2, counterexample: after the batch with sequences
[1, 2, 4, 5] for peer node 7 has advanced the checkpoint from 0 to 2, a
later batch containing only sequence [3] advances the checkpoint to 3,
not to 5 as the claim states (the batch does not contain 4 and 5). -/
theorem update_contiguous_second_batch_counterexample :
    (CheckpointManager.update_contiguous ⟨[]⟩ ⟨7⟩
      [mkEvt 7 1, mkEvt 7 2, mkEvt 7 4, mkEvt 7 5]).last_seq_for ⟨7⟩ = 2 ∧
    (CheckpointManager.update_contiguous
      (CheckpointManager.update_contiguous ⟨[]⟩ ⟨7⟩
        [mkEvt 7 1, mkEvt 7 2, mkEvt 7 4, mkEvt 7 5])
      ⟨7⟩ [mkEvt 7 3]).last_seq_for ⟨7⟩ = 3 ∧
    ¬ (CheckpointManager.update_contiguous
      (CheckpointManager.update_contiguous ⟨[]⟩ ⟨7⟩
        [mkEvt 7 1, mkEvt 7 2, mkEvt 7 4, mkEvt 7 5])
      ⟨7⟩ [mkEvt 7 3]).last_seq_for ⟨7⟩ = 5 := by
  decide

/-- Claim C2 (amended): CheckpointManager::update_contiguous never
decreases the stored last sequence for the peer, advances it exactly to
the end of the longest contiguous run starting at the old value + 1
(every sequence in the advanced interval occurs in the batch, and the
successor of the new value does not), and is idempotent on the same
batch; with checkpoint 0 and sequences [1,2,4,5] it advances to 2, and
after a later batch [3] it advances to 3 (not 5). -/
theorem update_contiguous_spec (ck : ReplicationCheckpoint)
    (node_id : NodeId) (events : List Event) :
    ck.last_seq_for node_id ≤
      (CheckpointManager.update_contiguous ck node_id events).last_seq_for
        node_id ∧
    (List.range' (ck.last_seq_for node_id + 1)
        ((CheckpointManager.update_contiguous ck node_id
            events).last_seq_for node_id - ck.last_seq_for node_id)).all
      (fun j => decide (j ∈
        (events.filter (fun e => decide (e.id.node_id = node_id))).map
          (fun e => e.id.sequence))) = true ∧
    decide (((CheckpointManager.update_contiguous ck node_id
        events).last_seq_for node_id + 1) ∈
      (events.filter (fun e => decide (e.id.node_id = node_id))).map
        (fun e => e.id.sequence)) = false ∧
    CheckpointManager.update_contiguous
      (CheckpointManager.update_contiguous ck node_id events) node_id events =
      CheckpointManager.update_contiguous ck node_id events ∧
    (CheckpointManager.update_contiguous ⟨[]⟩ ⟨7⟩
      [mkEvt 7 1, mkEvt 7 2, mkEvt 7 4, mkEvt 7 5]).last_seq_for ⟨7⟩ = 2 ∧
    (CheckpointManager.update_contiguous
      (CheckpointManager.update_contiguous ⟨[]⟩ ⟨7⟩
        [mkEvt 7 1, mkEvt 7 2, mkEvt 7 4, mkEvt 7 5])
      ⟨7⟩ [mkEvt 7 3]).last_seq_for ⟨7⟩ = 3 := by
  by_cases hemp : events.isEmpty
  · have hev : events = [] := List.isEmpty_iff.mp hemp
    subst hev
    refine ⟨le_refl _, ?_, ?_, ?_, by decide, by decide⟩
    · simp [CheckpointManager.update_contiguous]
    · simp [CheckpointManager.update_contiguous]
    · rfl
  · have hck : CheckpointManager.update_contiguous ck node_id events =
        (if contiguousGo (ck.last_seq_for node_id)
            (sortBySeq (events.filter
              (fun e => decide (e.id.node_id = node_id)))) >
            ck.last_seq_for node_id then
          ck.update node_id (contiguousGo (ck.last_seq_for node_id)
            (sortBySeq (events.filter
              (fun e => decide (e.id.node_id = node_id)))))
        else ck) := by
      rw [CheckpointManager.update_contiguous, if_neg (by simp [hemp])]
    set filtered := events.filter (fun e => decide (e.id.node_id = node_id))
      with hfiltered
    set sorted := sortBySeq filtered with hsorteddef
    set cur := ck.last_seq_for node_id with hcur
    set g := contiguousGo cur sorted with hg
    have hsorted := sortBySeq_sorted filtered
    have hperm : sorted.Perm filtered := sortBySeq_perm filtered
    have hmemiff : ∀ j, j ∈ sorted.map (fun e => e.id.sequence) ↔
        j ∈ filtered.map (fun e => e.id.sequence) :=
      fun j => (hperm.map (fun e => e.id.sequence)).mem_iff
    have hge : cur ≤ g := contiguousGo_ge sorted cur
    have hr : (CheckpointManager.update_contiguous ck node_id
        events).last_seq_for node_id = g := by
      rw [hck]
      by_cases hgt : g > cur
      · rw [if_pos hgt]
        simp only [ReplicationCheckpoint.last_seq_for,
          ReplicationCheckpoint.update, assocLookup_insert_self, Option.getD]
      · rw [if_neg hgt]
        omega
    refine ⟨?_, ?_, ?_, ?_, by decide, by decide⟩
    · rw [hr]; exact hge
    · rw [hr, List.all_eq_true]
      intro j hj
      rw [List.mem_range'_1] at hj
      rw [decide_eq_true_eq, ← hmemiff]
      exact contiguousGo_covers sorted cur hsorted j (by omega) (by omega)
    · rw [hr, decide_eq_false_iff_not, ← hmemiff]
      exact contiguousGo_next_not_mem sorted cur hsorted
    · rw [CheckpointManager.update_contiguous, if_neg (by simp [hemp])]
      rw [← hfiltered, ← hsorteddef, hr]
      have hstable : contiguousGo g sorted = g := by
        refine contiguousGo_stable sorted g ?_
        rw [hmemiff]
        have := contiguousGo_next_not_mem sorted cur hsorted
        rw [← hg, hmemiff] at this
        exact this
      show (if contiguousGo g sorted > g then
          (CheckpointManager.update_contiguous ck node_id events).update
            node_id (contiguousGo g sorted)
        else CheckpointManager.update_contiguous ck node_id events) =
        CheckpointManager.update_contiguous ck node_id events
      rw [hstable, if_neg (by omega)]

/-! ## Materializer (fylge-replication/src/materializer.rs) -/

/-- Fold underlying Iterator::max_by_key on the hlc key: the running
maximum is replaced whenever the next element's key is at least the
current one, so the last maximal element wins. -/
def maxByHlcGo (acc : Event) : List Event → Event
  | [] => acc
  | e :: rest => maxByHlcGo (if hlcLe acc.hlc e.hlc then e else acc) rest

/-- Iterator::max_by_key over the events, none when empty. -/
def maxByHlc : List Event → Option Event
  | [] => none
  | e :: rest => some (maxByHlcGo e rest)

/-- EntityMaterializer::materialize from
fylge-replication/src/materializer.rs. -/
def EntityMaterializer.materialize (events : List Event) : Option Entity :=
  (maxByHlc events).map Entity.from_event

theorem maxByHlcGo_mem (l : List Event) (acc : Event) :
    maxByHlcGo acc l = acc ∨ maxByHlcGo acc l ∈ l := by
  induction l generalizing acc with
  | nil => exact Or.inl rfl
  | cons e rest ih =>
    unfold maxByHlcGo
    by_cases hle : hlcLe acc.hlc e.hlc
    · rw [if_pos hle]
      rcases ih e with h | h
      · exact Or.inr (by rw [h]; exact List.mem_cons_self e rest)
      · exact Or.inr (List.mem_cons_of_mem e h)
    · rw [if_neg hle]
      rcases ih acc with h | h
      · exact Or.inl h
      · exact Or.inr (List.mem_cons_of_mem e h)

theorem maxByHlcGo_acc_le (l : List Event) (acc : Event) :
    hlcLe acc.hlc (maxByHlcGo acc l).hlc := by
  induction l generalizing acc with
  | nil => exact hlcLe_refl _
  | cons e rest ih =>
    unfold maxByHlcGo
    by_cases hle : hlcLe acc.hlc e.hlc
    · rw [if_pos hle]; exact hlcLe_trans hle (ih e)
    · rw [if_neg hle]; exact ih acc

theorem maxByHlcGo_le (l : List Event) (acc : Event) (x : Event)
    (hx : x = acc ∨ x ∈ l) : hlcLe x.hlc (maxByHlcGo acc l).hlc := by
  induction l generalizing acc with
  | nil =>
    rcases hx with rfl | h
    · exact hlcLe_refl _
    · cases h
  | cons e rest ih =>
    unfold maxByHlcGo
    rcases hx with rfl | hx
    · by_cases hle : hlcLe x.hlc e.hlc
      · rw [if_pos hle]; exact hlcLe_trans hle (maxByHlcGo_acc_le rest e)
      · rw [if_neg hle]; exact maxByHlcGo_acc_le rest x
    · rw [List.mem_cons] at hx
      rcases hx with rfl | hx
      · by_cases hle : hlcLe acc.hlc x.hlc
        · rw [if_pos hle]; exact maxByHlcGo_acc_le rest x
        · rw [if_neg hle]
          rcases hlcLe_total acc.hlc x.hlc with h | h
          · exact absurd h hle
          · exact hlcLe_trans h (maxByHlcGo_acc_le rest acc)
      · by_cases hle : hlcLe acc.hlc e.hlc
        · rw [if_pos hle]; exact ih e (Or.inr hx)
        · rw [if_neg hle]; exact ih acc (Or.inr hx)

theorem eq_of_mem_hlc_eq (l : List Event)
    (hd : l.Pairwise (fun a b => a.hlc ≠ b.hlc)) (m e : Event)
    (hm : m ∈ l) (he : e ∈ l) (heq : m.hlc = e.hlc) : m = e := by
  induction l with
  | nil => cases hm
  | cons a rest ih =>
    rw [List.pairwise_cons] at hd
    rw [List.mem_cons] at hm he
    rcases hm with rfl | hm <;> rcases he with rfl | he
    · rfl
    · exact absurd heq (hd.1 e he)
    · exact absurd heq.symm (hd.1 m hm)
    · exact ih hd.2 hm he

theorem materialize_eq_of_max (l : List Event)
    (hd : l.Pairwise (fun a b => a.hlc ≠ b.hlc)) (e : Event)
    (he : e ∈ l) (hmax : ∀ x ∈ l, hlcLe x.hlc e.hlc) :
    EntityMaterializer.materialize l = some (Entity.from_event e) := by
  cases l with
  | nil => cases he
  | cons a rest =>
    have hmem : maxByHlcGo a rest ∈ a :: rest := by
      rcases maxByHlcGo_mem rest a with h | h
      · rw [h]; exact List.mem_cons_self a rest
      · exact List.mem_cons_of_mem a h
    have hle1 : hlcLe (maxByHlcGo a rest).hlc e.hlc := hmax _ hmem
    have hle2 : hlcLe e.hlc (maxByHlcGo a rest).hlc := by
      refine maxByHlcGo_le rest a e ?_
      rw [List.mem_cons] at he
      exact he
    have heq : maxByHlcGo a rest = e :=
      eq_of_mem_hlc_eq (a :: rest) hd _ e hmem he (hlcLe_antisymm hle1 hle2)
    rw [EntityMaterializer.materialize, maxByHlc, heq, Option.map]

/-- Claim C3: for events of one entity with pairwise distinct HLC
timestamps, EntityMaterializer::materialize returns the entity built by
Entity::from_event from the event with the maximum HLC, the result is
the same on any permutation of the input, and the empty collection
gives none. -/
theorem materialize_lww (events eventsPerm : List Event) (e : Event)
    (hd : events.Pairwise (fun a b => a.hlc ≠ b.hlc))
    (he : e ∈ events)
    (hmax : ∀ x ∈ events, hlcLe x.hlc e.hlc)
    (hperm : events.Perm eventsPerm) :
    EntityMaterializer.materialize events = some (Entity.from_event e) ∧
    EntityMaterializer.materialize eventsPerm = some (Entity.from_event e) ∧
    EntityMaterializer.materialize [] = none := by
  refine ⟨materialize_eq_of_max events hd e he hmax, ?_, rfl⟩
  have hd2 : eventsPerm.Pairwise (fun a b => a.hlc ≠ b.hlc) :=
    (hperm.pairwise_iff (fun h => Ne.symm h)).mp hd
  refine materialize_eq_of_max eventsPerm hd2 e (hperm.mem_iff.mp he) ?_
  intro x hx
  exact hmax x (hperm.mem_iff.mpr hx)

/-- Witness for the C3 theorem: two events with distinct HLCs, in both
orders, materialize to the entity of the one with the larger HLC. -/
theorem materialize_lww_witness :
    EntityMaterializer.materialize [mkEvt 1 1, mkEvt 2 5] =
      some (Entity.from_event (mkEvt 2 5)) ∧
    EntityMaterializer.materialize [mkEvt 2 5, mkEvt 1 1] =
      some (Entity.from_event (mkEvt 2 5)) ∧
    EntityMaterializer.materialize [] = none :=
  materialize_lww [mkEvt 1 1, mkEvt 2 5] [mkEvt 2 5, mkEvt 1 1] (mkEvt 2 5)
    (by decide) (by decide) (by decide) (by decide)

/-! ## Entity stores (fylge-core/src/storage.rs,
fylge-db/src/entity_store.rs) -/

/-- Lookup in a generic association list modelling a keyed map. -/
def mapLookup {α β : Type} [DecidableEq α] : List (α × β) → α → Option β
  | [], _ => none
  | (k, v) :: rest, a => if k = a then some v else mapLookup rest a

/-- Insert-or-replace in a generic association list. -/
def mapInsert {α β : Type} [DecidableEq α] :
    List (α × β) → α → β → List (α × β)
  | [], a, b => [(a, b)]
  | (k, v) :: rest, a, b =>
    if k = a then (a, b) :: rest else (k, v) :: mapInsert rest a b

theorem mapLookup_insert_self {α β : Type} [DecidableEq α]
    (l : List (α × β)) (a : α) (b : β) :
    mapLookup (mapInsert l a b) a = some b := by
  induction l with
  | nil => simp [mapInsert, mapLookup]
  | cons p rest ih =>
    obtain ⟨k, v⟩ := p
    by_cases hka : k = a
    · simp [mapInsert, mapLookup, hka]
    · simp [mapInsert, mapLookup, hka, ih]

theorem mapLookup_insert_ne {α β : Type} [DecidableEq α]
    (l : List (α × β)) (a j : α) (b : β) (hj : j ≠ a) :
    mapLookup (mapInsert l a b) j = mapLookup l j := by
  induction l with
  | nil => simp [mapInsert, mapLookup, Ne.symm hj]
  | cons p rest ih =>
    obtain ⟨k, v⟩ := p
    by_cases hka : k = a
    · subst hka
      simp [mapInsert, mapLookup, Ne.symm hj]
    · simp only [mapInsert, if_neg hka]
      by_cases hkj : k = j
      · simp [mapLookup, hkj]
      · simp [mapLookup, hkj, ih]

/-- InMemoryEntityStore::upsert over the entities HashMap: a no-op when
the incoming hlc is less than or equal to the existing one, otherwise
insert-or-replace. -/
def InMemoryEntityStore.upsert (entities : List (Nat × Entity))
    (entity : Entity) : List (Nat × Entity) :=
  match mapLookup entities entity.id with
  | some existing =>
    if hlcLe entity.hlc existing.hlc then entities
    else mapInsert entities entity.id entity
  | none => mapInsert entities entity.id entity

/-- RedbEntityStore::upsert over the entities table keyed by the entity
UUID: identical guard, then table insert. -/
def RedbEntityStore.upsert (entities : List (Nat × Entity))
    (entity : Entity) : List (Nat × Entity) :=
  match mapLookup entities entity.id with
  | some existing =>
    if hlcLe entity.hlc existing.hlc then entities
    else mapInsert entities entity.id entity
  | none => mapInsert entities entity.id entity

/-- Claim C4: for every entity-store state and entity argument, upsert
(both the in-memory and the redb implementation) is a no-op when an
existing entity with the same id has HLC greater than or equal to the
argument's HLC; otherwise the stored entity for that id becomes the
argument; entries under any other id are always unchanged. -/
theorem entity_upsert_lww (m : List (Nat × Entity)) (ent : Entity) (j : Nat)
    (hj : j ≠ ent.id) :
    (match mapLookup m ent.id with
     | some existing =>
       if hlcLe ent.hlc existing.hlc then
         InMemoryEntityStore.upsert m ent = m ∧
         RedbEntityStore.upsert m ent = m
       else
         mapLookup (InMemoryEntityStore.upsert m ent) ent.id = some ent ∧
         mapLookup (RedbEntityStore.upsert m ent) ent.id = some ent
     | none =>
       mapLookup (InMemoryEntityStore.upsert m ent) ent.id = some ent ∧
       mapLookup (RedbEntityStore.upsert m ent) ent.id = some ent) ∧
    mapLookup (InMemoryEntityStore.upsert m ent) j = mapLookup m j ∧
    mapLookup (RedbEntityStore.upsert m ent) j = mapLookup m j := by
  unfold InMemoryEntityStore.upsert RedbEntityStore.upsert
  cases hl : mapLookup m ent.id with
  | some existing =>
    by_cases hle : hlcLe ent.hlc existing.hlc
    · simp [hl, hle]
    · simp only [hl, if_neg hle]
      exact ⟨⟨mapLookup_insert_self m ent.id ent,
          mapLookup_insert_self m ent.id ent⟩,
        mapLookup_insert_ne m ent.id j ent hj,
        mapLookup_insert_ne m ent.id j ent hj⟩
  | none =>
    simp only [hl]
    exact ⟨⟨mapLookup_insert_self m ent.id ent,
        mapLookup_insert_self m ent.id ent⟩,
      mapLookup_insert_ne m ent.id j ent hj,
      mapLookup_insert_ne m ent.id j ent hj⟩

/-- Witness for the C4 theorem: a store holding an entity with the
larger HLC under id 0, an incoming entity with a smaller HLC, observed
at the unrelated id 99. -/
theorem entity_upsert_lww_witness :
    (match mapLookup [(0, Entity.from_event (mkEvt 1 2))]
        (Entity.from_event (mkEvt 1 1)).id with
     | some existing =>
       if hlcLe (Entity.from_event (mkEvt 1 1)).hlc existing.hlc then
         InMemoryEntityStore.upsert [(0, Entity.from_event (mkEvt 1 2))]
             (Entity.from_event (mkEvt 1 1)) =
           [(0, Entity.from_event (mkEvt 1 2))] ∧
         RedbEntityStore.upsert [(0, Entity.from_event (mkEvt 1 2))]
             (Entity.from_event (mkEvt 1 1)) =
           [(0, Entity.from_event (mkEvt 1 2))]
       else
         mapLookup (InMemoryEntityStore.upsert
             [(0, Entity.from_event (mkEvt 1 2))]
             (Entity.from_event (mkEvt 1 1)))
             (Entity.from_event (mkEvt 1 1)).id =
           some (Entity.from_event (mkEvt 1 1)) ∧
         mapLookup (RedbEntityStore.upsert
             [(0, Entity.from_event (mkEvt 1 2))]
             (Entity.from_event (mkEvt 1 1)))
             (Entity.from_event (mkEvt 1 1)).id =
           some (Entity.from_event (mkEvt 1 1))
     | none =>
       mapLookup (InMemoryEntityStore.upsert
           [(0, Entity.from_event (mkEvt 1 2))]
           (Entity.from_event (mkEvt 1 1)))
           (Entity.from_event (mkEvt 1 1)).id =
         some (Entity.from_event (mkEvt 1 1)) ∧
       mapLookup (RedbEntityStore.upsert
           [(0, Entity.from_event (mkEvt 1 2))]
           (Entity.from_event (mkEvt 1 1)))
           (Entity.from_event (mkEvt 1 1)).id =
         some (Entity.from_event (mkEvt 1 1))) ∧
    mapLookup (InMemoryEntityStore.upsert
        [(0, Entity.from_event (mkEvt 1 2))]
        (Entity.from_event (mkEvt 1 1))) 99 =
      mapLookup [(0, Entity.from_event (mkEvt 1 2))] 99 ∧
    mapLookup (RedbEntityStore.upsert
        [(0, Entity.from_event (mkEvt 1 2))]
        (Entity.from_event (mkEvt 1 1))) 99 =
      mapLookup [(0, Entity.from_event (mkEvt 1 2))] 99 :=
  entity_upsert_lww [(0, Entity.from_event (mkEvt 1 2))]
    (Entity.from_event (mkEvt 1 1)) 99 (by decide)

/-! ## Event stores (fylge-core/src/storage.rs,
fylge-db/src/event_store.rs, fylge-db/src/tables.rs) -/

/-- Strict lexicographic order on (node_id, sequence) table keys; by the
key-encoding theorem below this is exactly the byte order redb uses on
the encoded 16-byte keys. -/
def keyLt (a b : Nat × Nat) : Prop :=
  a.1 < b.1 ∨ (a.1 = b.1 ∧ a.2 < b.2)

instance : DecidableRel keyLt := fun a b => by
  unfold keyLt; infer_instance

/-- Reflexive closure of the key order. -/
def keyLe (a b : Nat × Nat) : Prop :=
  keyLt a b ∨ a = b

instance : DecidableRel keyLe := fun a b => by
  unfold keyLe; infer_instance

/-- AppendResult from fylge-core/src/storage.rs. -/
structure AppendResult where
  event : Event
  sequence : Nat
deriving DecidableEq, Repr

/-- InMemoryEventStore state: the event vector and the per-node sequence
high-watermark map. -/
structure InMemoryEventStore where
  events : List Event
  sequences : List (NodeId × Nat)
deriving DecidableEq, Repr

/-- Duplicate check of InMemoryEventStore::append: any event with the
same node_id and sequence. -/
def InMemoryEventStore.hasEvent (s : InMemoryEventStore)
    (id : EventId) : Bool :=
  s.events.any (fun e =>
    decide (e.id.node_id = id.node_id) && decide (e.id.sequence = id.sequence))

/-- InMemoryEventStore::append: reject duplicates, raise the watermark
when the new sequence exceeds it, push the event. -/
def InMemoryEventStore.append (s : InMemoryEventStore) (event : Event) :
    Bool × InMemoryEventStore :=
  if s.hasEvent event.id then (false, s)
  else
    let current := (mapLookup s.sequences event.id.node_id).getD 0
    let sequences :=
      if event.id.sequence > current then
        mapInsert s.sequences event.id.node_id event.id.sequence
      else s.sequences
    (true, ⟨s.events ++ [event], sequences⟩)

/-- InMemoryEventStore::append_local: reserve watermark + 1, store the
event, advance the watermark, all in one step. -/
def InMemoryEventStore.append_local (s : InMemoryEventStore)
    (node_id : NodeId) (entity_id : Nat) (hlc : HlcTimestamp)
    (payload : Payload) : AppendResult × InMemoryEventStore :=
  let sequence := (mapLookup s.sequences node_id).getD 0 + 1
  let event : Event := ⟨⟨node_id, sequence⟩, entity_id, hlc, payload⟩
  (⟨event, sequence⟩,
    ⟨s.events ++ [event], mapInsert s.sequences node_id sequence⟩)

/-- InMemoryEventStore::get_events_since: filter, in storage order. -/
def InMemoryEventStore.get_events_since (s : InMemoryEventStore)
    (node_id : NodeId) (since_seq : Nat) : List Event :=
  s.events.filter (fun e =>
    decide (e.id.node_id = node_id) && decide (e.id.sequence > since_seq))

/-- RedbEventStore state: the key-ordered events table (kept sorted by
key, as the B-tree is) and the sequences table keyed by raw u64. -/
structure RedbEventStore where
  events : List ((Nat × Nat) × Event)
  sequences : List (Nat × Nat)
deriving DecidableEq, Repr

/-- Key-ordered insert into the events table; replaces on an equal key
(redb insert semantics). -/
def tableInsert : List ((Nat × Nat) × Event) → Nat × Nat → Event →
    List ((Nat × Nat) × Event)
  | [], k, v => [(k, v)]
  | (k', v') :: rest, k, v =>
    if keyLt k k' then (k, v) :: (k', v') :: rest
    else if k = k' then (k, v) :: rest
    else (k', v') :: tableInsert rest k v

/-- Key-existence check of RedbEventStore::append. -/
def tableContains (t : List ((Nat × Nat) × Event)) (k : Nat × Nat) : Bool :=
  t.any (fun kv => decide (kv.1 = k))

/-- RedbEventStore::append: reject an existing key, insert the event
under its (node_id, sequence) key, raise the watermark if exceeded. -/
def RedbEventStore.append (s : RedbEventStore) (event : Event) :
    Bool × RedbEventStore :=
  let key := (event.id.node_id.val, event.id.sequence)
  if tableContains s.events key then (false, s)
  else
    let current := (mapLookup s.sequences event.id.node_id.val).getD 0
    let sequences :=
      if event.id.sequence > current then
        mapInsert s.sequences event.id.node_id.val event.id.sequence
      else s.sequences
    (true, ⟨tableInsert s.events key event, sequences⟩)

/-- RedbEventStore::append_local inside one write transaction. -/
def RedbEventStore.append_local (s : RedbEventStore) (node_id : NodeId)
    (entity_id : Nat) (hlc : HlcTimestamp) (payload : Payload) :
    AppendResult × RedbEventStore :=
  let current_seq := (mapLookup s.sequences node_id.val).getD 0
  let sequence := current_seq + 1
  let event : Event := ⟨⟨node_id, sequence⟩, entity_id, hlc, payload⟩
  (⟨event, sequence⟩,
    ⟨tableInsert s.events (node_id.val, sequence) event,
      mapInsert s.sequences node_id.val sequence⟩)

theorem tableInsert_perm (t : List ((Nat × Nat) × Event)) (k : Nat × Nat)
    (v : Event) (hnc : tableContains t k = false) :
    (tableInsert t k v).Perm ((k, v) :: t) := by
  induction t with
  | nil => simp [tableInsert]
  | cons kv rest ih =>
    obtain ⟨k', v'⟩ := kv
    simp only [tableContains, List.any_cons, Bool.or_eq_false_iff,
      decide_eq_false_iff_not] at hnc
    by_cases hlt : keyLt k k'
    · simp [tableInsert, hlt]
    · rw [tableInsert, if_neg hlt, if_neg (fun h => hnc.1 h.symm)]
      have hperm := ih (by
        simp only [tableContains, decide_eq_false_iff_not]
        exact hnc.2)
      exact (hperm.cons (k', v')).trans (List.Perm.swap (k, v) (k', v') rest)

theorem watermark_max {α : Type} [DecidableEq α] (seqs : List (α × Nat))
    (n : α) (q : Nat) :
    (mapLookup
      (if q > (mapLookup seqs n).getD 0 then mapInsert seqs n q else seqs)
      n).getD 0 = max ((mapLookup seqs n).getD 0) q := by
  by_cases hgt : q > (mapLookup seqs n).getD 0
  · rw [if_pos hgt, mapLookup_insert_self]
    show q = max ((mapLookup seqs n).getD 0) q
    omega
  · rw [if_neg hgt]
    omega

/-- Claim C5: append (both implementations) returns false and leaves the
store unchanged when an event with the same EventId is present; when
none is present it returns true, the stored events become the old ones
plus the new event, and the per-node high-watermark becomes the maximum
of its old value and the event's sequence. -/
theorem event_append_spec (s : InMemoryEventStore) (rs : RedbEventStore)
    (ev : Event) :
    (if s.hasEvent ev.id then s.append ev = (false, s)
     else (s.append ev).1 = true ∧
       (s.append ev).2.events = s.events ++ [ev] ∧
       (mapLookup (s.append ev).2.sequences ev.id.node_id).getD 0 =
         max ((mapLookup s.sequences ev.id.node_id).getD 0)
           ev.id.sequence) ∧
    (if tableContains rs.events (ev.id.node_id.val, ev.id.sequence) then
       rs.append ev = (false, rs)
     else (rs.append ev).1 = true ∧
       ((rs.append ev).2.events).Perm
         (((ev.id.node_id.val, ev.id.sequence), ev) :: rs.events) ∧
       (mapLookup (rs.append ev).2.sequences ev.id.node_id.val).getD 0 =
         max ((mapLookup rs.sequences ev.id.node_id.val).getD 0)
           ev.id.sequence) := by
  constructor
  · by_cases hdup : s.hasEvent ev.id
    · rw [if_pos hdup]
      rw [InMemoryEventStore.append, if_pos hdup]
    · rw [if_neg hdup]
      rw [InMemoryEventStore.append, if_neg hdup]
      exact ⟨rfl, rfl, watermark_max s.sequences ev.id.node_id ev.id.sequence⟩
  · by_cases hdup : tableContains rs.events (ev.id.node_id.val, ev.id.sequence)
    · rw [if_pos hdup]
      rw [RedbEventStore.append, if_pos hdup]
    · rw [if_neg hdup]
      rw [RedbEventStore.append, if_neg hdup]
      exact ⟨rfl, tableInsert_perm rs.events _ ev
          (Bool.eq_false_iff.mpr hdup),
        watermark_max rs.sequences ev.id.node_id.val ev.id.sequence⟩

/-- Run a sequence of append_local calls for one node on the in-memory
store, collecting the results. -/
def runAppendLocalMem (node_id : NodeId) :
    InMemoryEventStore → List (Nat × HlcTimestamp × Payload) →
    List AppendResult × InMemoryEventStore
  | s, [] => ([], s)
  | s, (eid, hlc, pl) :: rest =>
    let r := s.append_local node_id eid hlc pl
    let rec2 := runAppendLocalMem node_id r.2 rest
    (r.1 :: rec2.1, rec2.2)

/-- Run a sequence of append_local calls for one node on the redb
store, collecting the results. -/
def runAppendLocalRedb (node_id : NodeId) :
    RedbEventStore → List (Nat × HlcTimestamp × Payload) →
    List AppendResult × RedbEventStore
  | s, [] => ([], s)
  | s, (eid, hlc, pl) :: rest =>
    let r := s.append_local node_id eid hlc pl
    let rec2 := runAppendLocalRedb node_id r.2 rest
    (r.1 :: rec2.1, rec2.2)

theorem tableInsert_append (t : List ((Nat × Nat) × Event)) (k : Nat × Nat)
    (v : Event) (hall : ∀ kv ∈ t, keyLt kv.1 k) :
    tableInsert t k v = t ++ [(k, v)] := by
  induction t with
  | nil => rfl
  | cons kv rest ih =>
    obtain ⟨k', v'⟩ := kv
    have hhead : keyLt k' k := hall (k', v') (List.mem_cons_self _ _)
    have h1 : ¬ keyLt k k' := by
      unfold keyLt at *; omega
    have h2 : ¬ k = k' := by
      intro h
      subst h
      unfold keyLt at hhead; omega
    rw [tableInsert, if_neg h1, if_neg h2,
      ih (fun kv hkv => hall kv (List.mem_cons_of_mem _ hkv))]
    rfl

theorem runMem_spec (node_id : NodeId)
    (inputs : List (Nat × HlcTimestamp × Payload))
    (s : InMemoryEventStore) (k : Nat)
    (hwm : (mapLookup s.sequences node_id).getD 0 = k)
    (hids : s.events.map (fun e => e.id) =
      (List.range' 1 k).map (fun i => (⟨node_id, i⟩ : EventId))) :
    (runAppendLocalMem node_id s inputs).1.map (fun r => r.sequence) =
      List.range' (k + 1) inputs.length ∧
    (runAppendLocalMem node_id s inputs).1.map (fun r => r.event.id) =
      (List.range' (k + 1) inputs.length).map
        (fun i => (⟨node_id, i⟩ : EventId)) ∧
    (runAppendLocalMem node_id s inputs).2.events.map (fun e => e.id) =
      (List.range' 1 (k + inputs.length)).map
        (fun i => (⟨node_id, i⟩ : EventId)) ∧
    (mapLookup (runAppendLocalMem node_id s inputs).2.sequences
      node_id).getD 0 = k + inputs.length := by
  induction inputs generalizing s k with
  | nil =>
    refine ⟨rfl, rfl, ?_, ?_⟩
    · simpa using hids
    · simpa using hwm
  | cons input rest ih =>
    obtain ⟨eid, hlc, pl⟩ := input
    have hseq : (mapLookup s.sequences node_id).getD 0 + 1 = k + 1 := by
      omega
    have hwm2 : (mapLookup (mapInsert s.sequences node_id
        ((mapLookup s.sequences node_id).getD 0 + 1)) node_id).getD 0 =
        k + 1 := by
      rw [mapLookup_insert_self]
      show (mapLookup s.sequences node_id).getD 0 + 1 = k + 1
      omega
    have hids2 : (s.events ++
        [(⟨⟨node_id, (mapLookup s.sequences node_id).getD 0 + 1⟩,
          eid, hlc, pl⟩ : Event)]).map (fun e => e.id) =
        (List.range' 1 (k + 1)).map (fun i => (⟨node_id, i⟩ : EventId)) := by
      have hconc : List.range' 1 (k + 1) = List.range' 1 k ++ [k + 1] := by
        have h := @List.range'_concat 1 1 k
        rw [show 1 + 1 * k = k + 1 by omega] at h
        exact h
      rw [hconc, List.map_append, List.map_append, hids, hwm]
      rfl
    have hmain := ih ⟨s.events ++
        [⟨⟨node_id, (mapLookup s.sequences node_id).getD 0 + 1⟩,
          eid, hlc, pl⟩],
        mapInsert s.sequences node_id
          ((mapLookup s.sequences node_id).getD 0 + 1)⟩
      (k + 1) hwm2 hids2
    rw [show runAppendLocalMem node_id s ((eid, hlc, pl) :: rest) =
        (⟨⟨⟨node_id, (mapLookup s.sequences node_id).getD 0 + 1⟩,
            eid, hlc, pl⟩,
          (mapLookup s.sequences node_id).getD 0 + 1⟩ ::
          (runAppendLocalMem node_id
            ⟨s.events ++ [⟨⟨node_id,
              (mapLookup s.sequences node_id).getD 0 + 1⟩, eid, hlc, pl⟩],
              mapInsert s.sequences node_id
                ((mapLookup s.sequences node_id).getD 0 + 1)⟩ rest).1,
          (runAppendLocalMem node_id
            ⟨s.events ++ [⟨⟨node_id,
              (mapLookup s.sequences node_id).getD 0 + 1⟩, eid, hlc, pl⟩],
              mapInsert s.sequences node_id
                ((mapLookup s.sequences node_id).getD 0 + 1)⟩ rest).2) from
      rfl]
    refine ⟨?_, ?_, ?_, ?_⟩
    · rw [List.map_cons, hmain.1, hseq, List.length_cons, List.range'_succ]
    · rw [List.map_cons, hmain.2.1, hseq, List.length_cons,
        List.range'_succ, List.map_cons]
    · rw [hmain.2.2.1, List.length_cons,
        show k + 1 + rest.length = k + (rest.length + 1) by omega]
    · rw [hmain.2.2.2, List.length_cons]
      omega

theorem runRedb_spec (node_id : NodeId)
    (inputs : List (Nat × HlcTimestamp × Payload))
    (rs : RedbEventStore) (k : Nat)
    (hwm : (mapLookup rs.sequences node_id.val).getD 0 = k)
    (hkeys : rs.events.map (fun kv => kv.1) =
      (List.range' 1 k).map (fun i => (node_id.val, i)))
    (hids : rs.events.map (fun kv => kv.2.id) =
      (List.range' 1 k).map (fun i => (⟨node_id, i⟩ : EventId))) :
    (runAppendLocalRedb node_id rs inputs).1.map (fun r => r.sequence) =
      List.range' (k + 1) inputs.length ∧
    (runAppendLocalRedb node_id rs inputs).1.map (fun r => r.event.id) =
      (List.range' (k + 1) inputs.length).map
        (fun i => (⟨node_id, i⟩ : EventId)) ∧
    (runAppendLocalRedb node_id rs inputs).2.events.map
        (fun kv => kv.2.id) =
      (List.range' 1 (k + inputs.length)).map
        (fun i => (⟨node_id, i⟩ : EventId)) ∧
    (mapLookup (runAppendLocalRedb node_id rs inputs).2.sequences
      node_id.val).getD 0 = k + inputs.length := by
  induction inputs generalizing rs k with
  | nil =>
    refine ⟨rfl, rfl, ?_, ?_⟩
    · simpa using hids
    · simpa using hwm
  | cons input rest ih =>
    obtain ⟨eid, hlc, pl⟩ := input
    have hconc : List.range' 1 (k + 1) = List.range' 1 k ++ [k + 1] := by
      have h := @List.range'_concat 1 1 k
      rw [show 1 + 1 * k = k + 1 by omega] at h
      exact h
    have hall : ∀ kv ∈ rs.events,
        keyLt kv.1 (node_id.val,
          (mapLookup rs.sequences node_id.val).getD 0 + 1) := by
      intro kv hkv
      have hmem : kv.1 ∈ rs.events.map (fun kv => kv.1) :=
        List.mem_map_of_mem _ hkv
      rw [hkeys, List.mem_map] at hmem
      obtain ⟨i, hi, hkeq⟩ := hmem
      rw [List.mem_range'_1] at hi
      rw [← hkeq]
      right
      constructor
      · rfl
      · show i < (mapLookup rs.sequences node_id.val).getD 0 + 1
        omega
    have hins := tableInsert_append rs.events
      (node_id.val, (mapLookup rs.sequences node_id.val).getD 0 + 1)
      ⟨⟨node_id, (mapLookup rs.sequences node_id.val).getD 0 + 1⟩,
        eid, hlc, pl⟩ hall
    have hwm2 : (mapLookup (mapInsert rs.sequences node_id.val
        ((mapLookup rs.sequences node_id.val).getD 0 + 1))
        node_id.val).getD 0 = k + 1 := by
      rw [mapLookup_insert_self]
      show (mapLookup rs.sequences node_id.val).getD 0 + 1 = k + 1
      omega
    have hkeys2 : (tableInsert rs.events
        (node_id.val, (mapLookup rs.sequences node_id.val).getD 0 + 1)
        ⟨⟨node_id, (mapLookup rs.sequences node_id.val).getD 0 + 1⟩,
          eid, hlc, pl⟩).map (fun kv => kv.1) =
        (List.range' 1 (k + 1)).map (fun i => (node_id.val, i)) := by
      rw [hins, hconc, List.map_append, List.map_append, hkeys, hwm]
      rfl
    have hids2 : (tableInsert rs.events
        (node_id.val, (mapLookup rs.sequences node_id.val).getD 0 + 1)
        ⟨⟨node_id, (mapLookup rs.sequences node_id.val).getD 0 + 1⟩,
          eid, hlc, pl⟩).map (fun kv => kv.2.id) =
        (List.range' 1 (k + 1)).map (fun i => (⟨node_id, i⟩ : EventId)) := by
      rw [hins, hconc, List.map_append, List.map_append, hids, hwm]
      rfl
    have hmain := ih ⟨tableInsert rs.events
        (node_id.val, (mapLookup rs.sequences node_id.val).getD 0 + 1)
        ⟨⟨node_id, (mapLookup rs.sequences node_id.val).getD 0 + 1⟩,
          eid, hlc, pl⟩,
        mapInsert rs.sequences node_id.val
          ((mapLookup rs.sequences node_id.val).getD 0 + 1)⟩
      (k + 1) hwm2 hkeys2 hids2
    have hseq : (mapLookup rs.sequences node_id.val).getD 0 + 1 = k + 1 := by
      omega
    rw [show runAppendLocalRedb node_id rs ((eid, hlc, pl) :: rest) =
        (⟨⟨⟨node_id, (mapLookup rs.sequences node_id.val).getD 0 + 1⟩,
            eid, hlc, pl⟩,
          (mapLookup rs.sequences node_id.val).getD 0 + 1⟩ ::
          (runAppendLocalRedb node_id ⟨tableInsert rs.events
            (node_id.val, (mapLookup rs.sequences node_id.val).getD 0 + 1)
            ⟨⟨node_id, (mapLookup rs.sequences node_id.val).getD 0 + 1⟩,
              eid, hlc, pl⟩,
            mapInsert rs.sequences node_id.val
              ((mapLookup rs.sequences node_id.val).getD 0 + 1)⟩ rest).1,
          (runAppendLocalRedb node_id ⟨tableInsert rs.events
            (node_id.val, (mapLookup rs.sequences node_id.val).getD 0 + 1)
            ⟨⟨node_id, (mapLookup rs.sequences node_id.val).getD 0 + 1⟩,
              eid, hlc, pl⟩,
            mapInsert rs.sequences node_id.val
              ((mapLookup rs.sequences node_id.val).getD 0 + 1)⟩ rest).2)
      from rfl]
    refine ⟨?_, ?_, ?_, ?_⟩
    · rw [List.map_cons, hmain.1, hseq, List.length_cons, List.range'_succ]
    · rw [List.map_cons, hmain.2.1, hseq, List.length_cons,
        List.range'_succ, List.map_cons]
    · rw [hmain.2.2.1, List.length_cons,
        show k + 1 + rest.length = k + (rest.length + 1) by omega]
    · rw [hmain.2.2.2, List.length_cons]
      omega

/-- Claim C6: starting from an empty store, a sequence of append_local
calls for a fixed node (with no interleaved appends) assigns exactly the
sequences 1, 2, 3, … in call order with no duplicates and no gaps, the
stored events carry exactly those EventIds in order, and each returned
AppendResult's event id equals (node, its sequence); this holds for both
the in-memory and the redb implementation. -/
theorem append_local_sequences (node_id : NodeId)
    (inputs : List (Nat × HlcTimestamp × Payload)) :
    (runAppendLocalMem node_id ⟨[], []⟩ inputs).1.map
        (fun r => r.sequence) = List.range' 1 inputs.length ∧
    (runAppendLocalMem node_id ⟨[], []⟩ inputs).1.map
        (fun r => r.event.id) =
      (List.range' 1 inputs.length).map
        (fun i => (⟨node_id, i⟩ : EventId)) ∧
    (runAppendLocalMem node_id ⟨[], []⟩ inputs).2.events.map
        (fun e => e.id) =
      (List.range' 1 inputs.length).map
        (fun i => (⟨node_id, i⟩ : EventId)) ∧
    (runAppendLocalRedb node_id ⟨[], []⟩ inputs).1.map
        (fun r => r.sequence) = List.range' 1 inputs.length ∧
    (runAppendLocalRedb node_id ⟨[], []⟩ inputs).1.map
        (fun r => r.event.id) =
      (List.range' 1 inputs.length).map
        (fun i => (⟨node_id, i⟩ : EventId)) ∧
    (runAppendLocalRedb node_id ⟨[], []⟩ inputs).2.events.map
        (fun kv => kv.2.id) =
      (List.range' 1 inputs.length).map
        (fun i => (⟨node_id, i⟩ : EventId)) := by
  have hm := runMem_spec node_id inputs ⟨[], []⟩ 0 rfl rfl
  have hr := runRedb_spec node_id inputs ⟨[], []⟩ 0 rfl rfl rfl
  exact ⟨by simpa using hm.1, by simpa using hm.2.1, by simpa using hm.2.2.1,
    by simpa using hr.1, by simpa using hr.2.1, by simpa using hr.2.2.1⟩

/-! ## Range reads (fylge-db/src/event_store.rs get_events_since) -/

/-- Size of the u64 value space. -/
def U64 : Nat := 18446744073709551616

/-- Range bounds computed by RedbEventStore::get_events_since: the u64
additions since_seq + 1 and node_id + 1 wrap modulo 2^64 (release-mode
Rust semantics; a debug build panics instead when they overflow). -/
def getEventsSinceBounds (node_id since_seq : Nat) :
    (Nat × Nat) × (Nat × Nat) :=
  ((node_id, (since_seq + 1) % U64), ((node_id + 1) % U64, 0))

/-- Whether either bound computation of get_events_since overflows u64. -/
def getEventsSinceOverflow (node_id since_seq : Nat) : Bool :=
  decide (since_seq + 1 ≥ U64) || decide (node_id + 1 ≥ U64)

/-- RedbEventStore::get_events_since: a key-range scan over the sorted
events table from (node_id, since_seq + 1) inclusive to (node_id + 1, 0)
exclusive, keeping only keys of the requested node. -/
def RedbEventStore.get_events_since (rs : RedbEventStore)
    (node_id : NodeId) (since_seq : Nat) : List Event :=
  let start_key := (getEventsSinceBounds node_id.val since_seq).1
  let end_key := (getEventsSinceBounds node_id.val since_seq).2
  ((rs.events.filter (fun kv =>
      decide (keyLe start_key kv.1) && decide (keyLt kv.1 end_key))).filter
    (fun kv => decide (kv.1.1 = node_id.val))).map (fun kv => kv.2)

theorem NodeId.val_inj {a b : NodeId} : a.val = b.val ↔ a = b := by
  cases a; cases b; simp

theorem map_snd_filter_comp {γ : Type} (p : Event → Bool)
    (l : List (γ × Event)) :
    (l.filter (fun kv => p kv.2)).map (fun kv => kv.2) =
      (l.map (fun kv => kv.2)).filter p := by
  induction l with
  | nil => rfl
  | cons kv rest ih =>
    by_cases hp : p kv.2
    · simp [List.filter_cons, hp, ih]
    · simp [List.filter_cons, hp, ih]

/-- Claim C10, counterexample: at since_seq = u64::MAX the expression
since_seq + 1 overflows u64 (getEventsSinceOverflow is true), and under
the wrapping release semantics the scan returns an event whose sequence
5 is not greater than since_seq, instead of the empty list (a debug
build panics on the overflow). -/
theorem get_events_since_overflow_counterexample :
    getEventsSinceOverflow 1 (U64 - 1) = true ∧
    RedbEventStore.get_events_since
      ⟨[((1, 5), mkEvt 1 5)], [(1, 5)]⟩ ⟨1⟩ (U64 - 1) = [mkEvt 1 5] ∧
    ¬ (mkEvt 1 5).id.sequence > U64 - 1 := by
  refine ⟨by decide, by decide, by decide⟩

/-- Claim C10 (amended): for node_id < u64::MAX and since_seq < u64::MAX
the range bounds of RedbEventStore::get_events_since are computed
without u64 overflow: the overflow flag is false and the bounds are
exactly ((node_id, since_seq + 1), (node_id + 1, 0)). At u64::MAX the
additions overflow: a debug build panics and a release build wraps,
returning events whose sequences are not greater than since_seq. -/
theorem get_events_since_no_overflow (node_id since_seq : Nat)
    (hn : node_id + 1 < U64) (hs : since_seq + 1 < U64) :
    getEventsSinceOverflow node_id since_seq = false ∧
    getEventsSinceBounds node_id since_seq =
      ((node_id, since_seq + 1), (node_id + 1, 0)) := by
  constructor
  · unfold getEventsSinceOverflow
    rw [Bool.or_eq_false_iff]
    refine ⟨?_, ?_⟩ <;> (rw [decide_eq_false_iff_not]; omega)
  · unfold getEventsSinceBounds
    rw [Nat.mod_eq_of_lt hs, Nat.mod_eq_of_lt hn]

/-- Witness for the C10 theorem at node_id 1, since_seq 5. -/
theorem get_events_since_no_overflow_witness :
    getEventsSinceOverflow 1 5 = false ∧
    getEventsSinceBounds 1 5 = ((1, 6), (2, 0)) :=
  get_events_since_no_overflow 1 5 (by decide) (by decide)

/-- Claim C8, counterexample: the in-memory store returns matching
events in storage (append) order, not sorted by sequence: appending
sequence 2 and then sequence 1 for node 1 and reading since 0 returns
the sequences in order [2, 1], which is not ascending. -/
theorem get_events_since_unsorted_counterexample :
    ((((InMemoryEventStore.append ⟨[], []⟩ (mkEvt 1 2)).2.append
        (mkEvt 1 1)).2.get_events_since ⟨1⟩ 0).map
      (fun e => e.id.sequence)) = [2, 1] ∧
    ¬ ([2, 1] : List Nat).Pairwise (· < ·) := by
  refine ⟨by decide, by decide⟩

/-- Claim C8 (amended): both implementations of get_events_since return
exactly the stored events with the requested node id and sequence
strictly above since_seq; the redb implementation returns them ordered
by sequence ascending regardless of append order (given the key-sorted
table and the key/id agreement invariant, for in-range node_id and
since_seq), while the in-memory implementation returns them in storage
order, a sublist of the stored event vector. -/
theorem get_events_since_spec (rs : RedbEventStore)
    (s : InMemoryEventStore) (node_id : NodeId) (since_seq : Nat)
    (hsorted : rs.events.Pairwise (fun a b => keyLt a.1 b.1))
    (hkeys : ∀ kv ∈ rs.events,
      kv.1 = (kv.2.id.node_id.val, kv.2.id.sequence))
    (hn : node_id.val + 1 < U64) (hs : since_seq + 1 < U64) :
    rs.get_events_since node_id since_seq =
      (rs.events.map (fun kv => kv.2)).filter (fun e =>
        decide (e.id.node_id = node_id) &&
        decide (e.id.sequence > since_seq)) ∧
    ((rs.get_events_since node_id since_seq).map
      (fun e => e.id.sequence)).Pairwise (· < ·) ∧
    s.get_events_since node_id since_seq =
      s.events.filter (fun e =>
        decide (e.id.node_id = node_id) &&
        decide (e.id.sequence > since_seq)) ∧
    (s.get_events_since node_id since_seq).Sublist s.events := by
  have hfilter : (rs.events.filter (fun kv =>
        decide (keyLe (getEventsSinceBounds node_id.val since_seq).1 kv.1) &&
        decide (keyLt kv.1
          (getEventsSinceBounds node_id.val since_seq).2))).filter
      (fun kv => decide (kv.1.1 = node_id.val)) =
      rs.events.filter (fun kv =>
        decide (kv.2.id.node_id = node_id) &&
        decide (kv.2.id.sequence > since_seq)) := by
    rw [List.filter_filter]
    refine List.filter_congr ?_
    intro kv hkv
    have hk := hkeys kv hkv
    rw [Bool.eq_iff_iff]
    rw [(get_events_since_no_overflow node_id.val since_seq hn hs).2]
    simp only [hk, keyLe, keyLt, Bool.and_eq_true, decide_eq_true_eq,
      ← NodeId.val_inj, Prod.mk.injEq]
    omega
  constructor
  · rw [RedbEventStore.get_events_since]
    rw [hfilter]
    exact map_snd_filter_comp
      (fun e => decide (e.id.node_id = node_id) &&
        decide (e.id.sequence > since_seq)) rs.events
  constructor
  · rw [RedbEventStore.get_events_since, hfilter]
    rw [List.map_map, List.pairwise_map]
    have hsub : (rs.events.filter (fun kv =>
        decide (kv.2.id.node_id = node_id) &&
        decide (kv.2.id.sequence > since_seq))).Sublist rs.events :=
      List.filter_sublist rs.events
    have hpair := hsorted.sublist hsub
    refine hpair.imp_of_mem ?_
    intro a b ha hb hlt
    have hka := hkeys a (hsub.mem ha)
    have hkb := hkeys b (hsub.mem hb)
    have hpa := List.of_mem_filter ha
    have hpb := List.of_mem_filter hb
    rw [Bool.and_eq_true, decide_eq_true_eq, decide_eq_true_eq] at hpa hpb
    unfold keyLt at hlt
    rw [hka, hkb] at hlt
    simp only at hlt
    have hna : a.2.id.node_id.val = node_id.val :=
      NodeId.val_inj.mpr hpa.1
    have hnb : b.2.id.node_id.val = node_id.val :=
      NodeId.val_inj.mpr hpb.1
    show a.2.id.sequence < b.2.id.sequence
    omega
  constructor
  · rfl
  · exact List.filter_sublist s.events

/-- Witness for the C8 theorem on a three-event sorted table and a
matching in-memory store. -/
theorem get_events_since_spec_witness :
    (RedbEventStore.get_events_since
        ⟨[((1, 1), mkEvt 1 1), ((1, 2), mkEvt 1 2), ((2, 1), mkEvt 2 1)],
          [(1, 2), (2, 1)]⟩ ⟨1⟩ 0) =
      (([((1, 1), mkEvt 1 1), ((1, 2), mkEvt 1 2),
          ((2, 1), mkEvt 2 1)].map (fun kv => kv.2)).filter (fun e =>
        decide (e.id.node_id = ⟨1⟩) && decide (e.id.sequence > 0))) ∧
    ((RedbEventStore.get_events_since
        ⟨[((1, 1), mkEvt 1 1), ((1, 2), mkEvt 1 2), ((2, 1), mkEvt 2 1)],
          [(1, 2), (2, 1)]⟩ ⟨1⟩ 0).map
      (fun e => e.id.sequence)).Pairwise (· < ·) ∧
    (InMemoryEventStore.get_events_since
        ⟨[mkEvt 1 1, mkEvt 1 2, mkEvt 2 1], [(⟨1⟩, 2), (⟨2⟩, 1)]⟩ ⟨1⟩ 0) =
      ([mkEvt 1 1, mkEvt 1 2, mkEvt 2 1].filter (fun e =>
        decide (e.id.node_id = ⟨1⟩) && decide (e.id.sequence > 0))) ∧
    (InMemoryEventStore.get_events_since
        ⟨[mkEvt 1 1, mkEvt 1 2, mkEvt 2 1], [(⟨1⟩, 2), (⟨2⟩, 1)]⟩ ⟨1⟩
        0).Sublist [mkEvt 1 1, mkEvt 1 2, mkEvt 2 1] :=
  get_events_since_spec
    ⟨[((1, 1), mkEvt 1 1), ((1, 2), mkEvt 1 2), ((2, 1), mkEvt 2 1)],
      [(1, 2), (2, 1)]⟩
    ⟨[mkEvt 1 1, mkEvt 1 2, mkEvt 2 1], [(⟨1⟩, 2), (⟨2⟩, 1)]⟩ ⟨1⟩ 0
    (by decide) (by decide) (by decide) (by decide)

/-! ## Event key encoding (fylge-db/src/tables.rs) -/

/-- Big-endian byte decomposition of a value into k bytes
(u64::to_be_bytes for k = 8). -/
def beBytes : Nat → Nat → List Nat
  | 0, _ => []
  | k + 1, x => beBytes k (x / 256) ++ [x % 256]

/-- Recomposition of big-endian bytes (u64::from_be_bytes). -/
def ofBeBytes (l : List Nat) : Nat :=
  l.foldl (fun acc b => acc * 256 + b) 0

/-- encode_event_key from fylge-db/src/tables.rs: the 16-byte
big-endian concatenation node_id followed by sequence. -/
def encode_event_key (node_id sequence : Nat) : List Nat :=
  beBytes 8 node_id ++ beBytes 8 sequence

/-- decode_event_key from fylge-db/src/tables.rs. -/
def decode_event_key (bytes : List Nat) : Nat × Nat :=
  (ofBeBytes (bytes.take 8), ofBeBytes (bytes.drop 8))

/-- Lexicographic comparison of byte strings (the Ord of &[u8] used by
redb on keys; the compared keys always have equal length 16 here). -/
def bytesLt : List Nat → List Nat → Bool
  | [], [] => false
  | [], _ :: _ => true
  | _ :: _, [] => false
  | a :: as, b :: bs => decide (a < b) || (decide (a = b) && bytesLt as bs)

theorem beBytes_length (k x : Nat) : (beBytes k x).length = k := by
  induction k generalizing x with
  | zero => rfl
  | succ k ih => simp [beBytes, ih]

theorem ofBe_append_singleton (l : List Nat) (b : Nat) :
    ofBeBytes (l ++ [b]) = ofBeBytes l * 256 + b := by
  unfold ofBeBytes
  rw [List.foldl_append]
  rfl

theorem div256_lt {k x : Nat} (hx : x < 256 ^ (k + 1)) :
    x / 256 < 256 ^ k := by
  rw [Nat.div_lt_iff_lt_mul (by norm_num)]
  rw [pow_succ] at hx
  exact hx

theorem ofBe_beBytes (k x : Nat) (hx : x < 256 ^ k) :
    ofBeBytes (beBytes k x) = x := by
  induction k generalizing x with
  | zero =>
    simp only [beBytes, ofBeBytes, List.foldl_nil]
    simp only [pow_zero] at hx
    omega
  | succ k ih =>
    rw [beBytes, ofBe_append_singleton, ih (x / 256) (div256_lt hx)]
    omega

theorem beBytes_inj (k x y : Nat) (hx : x < 256 ^ k) (hy : y < 256 ^ k) :
    beBytes k x = beBytes k y ↔ x = y := by
  constructor
  · intro h
    have hofs := congrArg ofBeBytes h
    rwa [ofBe_beBytes k x hx, ofBe_beBytes k y hy] at hofs
  · intro h; rw [h]

theorem take_append_of_length {l1 l2 : List Nat} {k : Nat}
    (h : l1.length = k) : (l1 ++ l2).take k = l1 := by
  subst h; exact List.take_left l1 l2

theorem drop_append_of_length {l1 l2 : List Nat} {k : Nat}
    (h : l1.length = k) : (l1 ++ l2).drop k = l2 := by
  subst h; exact List.drop_left l1 l2

theorem bytesLt_append (a : List Nat) (c : List Nat) (b d : List Nat)
    (hlen : a.length = c.length) :
    bytesLt (a ++ b) (c ++ d) =
      (bytesLt a c || (decide (a = c) && bytesLt b d)) := by
  induction a generalizing c with
  | nil =>
    have hc : c = [] := List.length_eq_zero.mp hlen.symm
    subst hc
    simp [bytesLt]
  | cons x as ih =>
    cases c with
    | nil => simp at hlen
    | cons y cs =>
      simp only [List.cons_append, bytesLt, List.append_eq]
      rw [ih cs (by simpa using hlen)]
      have hdec : decide ((x :: as) = (y :: cs)) =
          (decide (x = y) && decide (as = cs)) := by
        rw [← Bool.decide_and, decide_eq_decide]
        simp
      rw [hdec]
      cases hb1 : decide (x < y) <;> cases hb2 : decide (x = y) <;>
        cases hb3 : bytesLt as cs <;> cases hb4 : decide (as = cs) <;>
        cases hb5 : bytesLt b d <;> rfl

theorem bytesLt_beBytes_iff (k x y : Nat) (hx : x < 256 ^ k)
    (hy : y < 256 ^ k) :
    (bytesLt (beBytes k x) (beBytes k y) = true) ↔ x < y := by
  induction k generalizing x y with
  | zero =>
    simp only [beBytes, bytesLt, pow_zero] at *
    constructor
    · intro h; cases h
    · omega
  | succ k ih =>
    rw [beBytes, beBytes,
      bytesLt_append _ _ _ _ (by rw [beBytes_length, beBytes_length])]
    have hsingle : bytesLt [x % 256] [y % 256] =
        decide (x % 256 < y % 256) := by
      simp [bytesLt]
    rw [hsingle, Bool.or_eq_true, Bool.and_eq_true, decide_eq_true_eq,
      decide_eq_true_eq,
      ih (x / 256) (y / 256) (div256_lt hx) (div256_lt hy),
      beBytes_inj k (x / 256) (y / 256) (div256_lt hx) (div256_lt hy)]
    omega

/-- Claim C9: for u64 pairs, the 16-byte keys produced by
encode_event_key compare under byte-string lexicographic order exactly
as the pairs compare in numeric lexicographic order on
(node_id, sequence), and decode_event_key inverts encode_event_key. -/
theorem encode_event_key_order (n s m t : Nat)
    (hn : n < U64) (hs : s < U64) (hm : m < U64) (ht : t < U64) :
    ((bytesLt (encode_event_key n s) (encode_event_key m t) = true) ↔
      (n < m ∨ (n = m ∧ s < t))) ∧
    decode_event_key (encode_event_key n s) = (n, s) := by
  have hU : (256 : Nat) ^ 8 = U64 := by norm_num [U64]
  rw [← hU] at hn hs hm ht
  constructor
  · rw [encode_event_key, encode_event_key,
      bytesLt_append _ _ _ _ (by rw [beBytes_length, beBytes_length]),
      Bool.or_eq_true, Bool.and_eq_true, decide_eq_true_eq,
      bytesLt_beBytes_iff 8 n m hn hm,
      beBytes_inj 8 n m hn hm,
      bytesLt_beBytes_iff 8 s t hs ht]
  · rw [encode_event_key, decode_event_key,
      take_append_of_length (beBytes_length 8 n),
      drop_append_of_length (beBytes_length 8 n),
      ofBe_beBytes 8 n hn, ofBe_beBytes 8 s hs]

/-- Witness for the C9 theorem at the pairs (42, 100) and (42, 101). -/
theorem encode_event_key_order_witness :
    ((bytesLt (encode_event_key 42 100) (encode_event_key 42 101) = true) ↔
      (42 < 42 ∨ (42 = 42 ∧ 100 < 101))) ∧
    decode_event_key (encode_event_key 42 100) = (42, 100) :=
  encode_event_key_order 42 100 42 101 (by decide) (by decide) (by decide)
    (by decide)

end Fylge
